import Mathlib

set_option maxHeartbeats 1000000
set_option maxRecDepth 4000

/-
  Verification of the lockstep monorepo versioning tool
  (source: src/src/lockstep.ts).

  Strings whose contents matter (versions, ranges, commit subjects, tags)
  are modelled as `List Char`; package names, which are only compared for
  equality and used as map keys, stay `String`.  JavaScript `Map` objects
  are modelled as association lists with first-match get and
  replace-first-binding set, which matches `Map` semantics on the
  unique-key maps the code builds.  A dependency range value, which in a
  manifest may be any JSON value, is modelled as either a string or an
  opaque non-string.
-/

-- ===========================================================================
-- Data model (src/types.ts: PackageJson, WorkspacePackage)
-- ===========================================================================

/-- A JSON value sitting in a dependency map: a string range, or anything
else (the version routine skips ranges whose runtime type is not string). -/
inductive RangeVal where
  | str (s : List Char)
  | nonStr
deriving DecidableEq

/-- The fields of a package manifest the core reads and writes. -/
structure PackageJson where
  name : String
  version : List Char
  dependencies : List (String × RangeVal)
  devDependencies : List (String × RangeVal)
  peerDependencies : List (String × RangeVal)
  optionalDependencies : List (String × RangeVal)
deriving DecidableEq

/-- `DEP_FIELDS` (lockstep.ts lines 28-33): the four dependency maps, in
the order the code iterates them. -/
def depFieldsOf (p : PackageJson) : List (List (String × RangeVal)) :=
  [p.dependencies, p.devDependencies, p.peerDependencies, p.optionalDependencies]

/-- A workspace package record (dir/pkgPath omitted: the claims never
inspect file locations).  As in `buildWorkspace`, `name` and `version`
are copies of the manifest fields. -/
structure WorkspacePackage where
  name : String
  version : List Char
  data : PackageJson
deriving DecidableEq

-- ===========================================================================
-- JavaScript Map model
-- ===========================================================================

/-- The get operation of a JS Map: value of the first (hence, for JS
maps, only) binding. -/
def mapGet {α : Type} : List (String × α) → String → Option α
  | [], _ => none
  | e :: es, k => if e.1 = k then some e.2 else mapGet es k

/-- The set operation of a JS Map: replace the first binding in place,
else append. -/
def mapSet {α : Type} : List (String × α) → String → α → List (String × α)
  | [], k, v => [(k, v)]
  | e :: es, k, v => if e.1 = k then (k, v) :: es else e :: mapSet es k v

/-- The dependency graph: package name to list of dependent names. -/
abbrev Graph := List (String × List String)

/-- Lookup of an adjacency list, defaulting to empty for a missing key
(the code writes `graph.get(n) || []`). -/
def graphGet (g : Graph) (k : String) : List String :=
  (mapGet g k).getD []

/-- Push onto an adjacency list: append `x` to the list bound to `k`
(no effect when `k` is missing, which the code never exercises). -/
def graphPush : Graph → String → String → Graph
  | [], _, _ => []
  | e :: es, k, x => if e.1 = k then (e.1, e.2 ++ [x]) :: es else e :: graphPush es k x

/-- The edge relation recorded in a graph: an edge dependency → dependent. -/
abbrev graphEdge (g : Graph) (u v : String) : Prop := v ∈ graphGet g u

-- ===========================================================================
-- buildWorkspace graph construction (lockstep.ts lines 164-181)
-- ===========================================================================

/-- Inner loop of graph construction: for each `(depName, range)` pair of
one dependency field of the package named `pname`, if `depName` is a
workspace member, append the edge depName → pname.  The range value is
never inspected (the code iterates `Object.keys(deps)` only). -/
def addDeps (names : List String) (pname : String) : Graph → List (String × RangeVal) → Graph
  | g, [] => g
  | g, d :: ds =>
    addDeps names pname (if names.contains d.1 then graphPush g d.1 pname else g) ds

/-- Iterate `DEP_FIELDS` for one package. -/
def addFields (names : List String) (pname : String) :
    Graph → List (List (String × RangeVal)) → Graph
  | g, [] => g
  | g, f :: fs => addFields names pname (addDeps names pname g f) fs

/-- Iterate all packages, adding their edges. -/
def addAllPkgs (names : List String) : Graph → List WorkspacePackage → Graph
  | g, [] => g
  | g, p :: ps => addAllPkgs names (addFields names p.name g (depFieldsOf p.data)) ps

/-- `for (const p of packages) graph.set(p.name, [])`. -/
def initGraph : Graph → List WorkspacePackage → Graph
  | g, [] => g
  | g, p :: ps => initGraph (mapSet g p.name []) ps

/-- The dependency graph built by `buildWorkspace` (lines 164-179):
initialize an empty dependent-list per package, then for every package,
every dependency field and every dependency key that names a workspace
member, push the edge dependency → dependent. -/
def buildGraph (ps : List WorkspacePackage) : Graph :=
  addAllPkgs (ps.map (fun p => p.name)) (initGraph [] ps) ps

-- ===========================================================================
-- ensureAllSameVersion (lockstep.ts lines 190-200)
-- ===========================================================================

/-- One insertion into a JS `Set` (insertion-ordered, first occurrence kept). -/
def addToSet (acc : List (List Char)) (v : List Char) : List (List Char) :=
  if v ∈ acc then acc else acc ++ [v]

def jsSetAux : List (List Char) → List (List Char) → List (List Char)
  | acc, [] => acc
  | acc, v :: vs => jsSetAux (addToSet acc v) vs

/-- Spreading a JS Set built from a list: deduplicate, keeping
first-occurrence order. -/
def jsSetOf (l : List (List Char)) : List (List Char) :=
  jsSetAux [] l

/-- The lockstep invariant check (lines 190-200): collect the set of
versions; if its size is not 1, throw listing the distinct versions
found; else return the single version. -/
def ensureAllSameVersion (packages : List WorkspacePackage) :
    Except (List Char) (List Char) :=
  match jsSetOf (packages.map (fun p => p.version)) with
  | [v] => Except.ok v
  | s =>
    Except.error (("Lockstep requires all packages have the same version. Found: ").toList
      ++ List.intercalate ((", ").toList) s)

-- ===========================================================================
-- semverBump (lockstep.ts lines 209-231)
-- ===========================================================================

/-- Longest digit prefix (`\d+` with maximal munch) and the rest. -/
def digitSpan : List Char → List Char × List Char
  | [] => ([], [])
  | c :: cs =>
    if c.isDigit then
      let r := digitSpan cs
      (c :: r.1, r.2)
    else ([], c :: cs)

def digitsToNatAux : Nat → List Char → Nat
  | acc, [] => acc
  | acc, c :: cs => digitsToNatAux (10 * acc + (c.toNat - 48)) cs

/-- Numeric value of a digit string (`+MA` on a `\d+` capture). -/
def numVal (ds : List Char) : Nat := digitsToNatAux 0 ds

/-- The semver pattern match of line 210: three numeric dot-separated
components, optionally followed by a dash and one or more non-newline
characters (the regex dot does not match a newline, and the anchor is
the end of input). -/
def parseSemver (v : List Char) : Option (Nat × Nat × Nat) :=
  let s1 := digitSpan v
  if s1.1 = [] then none else
  match s1.2 with
  | '.' :: r1 =>
    let s2 := digitSpan r1
    if s2.1 = [] then none else
    match s2.2 with
    | '.' :: r2 =>
      let s3 := digitSpan r2
      if s3.1 = [] then none else
      match s3.2 with
      | [] => some (numVal s1.1, numVal s2.1, numVal s3.1)
      | '-' :: c :: cs =>
        if (c :: cs).all (fun ch => ch != '\n') then
          some (numVal s1.1, numVal s2.1, numVal s3.1)
        else none
      | _ => none
    | _ => none
  | _ => none

def natChars (n : Nat) : List Char := (Nat.repr n).toList

/-- Render the bumped version as a plain dotted triple. -/
def renderVersion (ma mi pa : Nat) : List Char :=
  natChars ma ++ '.' :: natChars mi ++ '.' :: natChars pa

/-- A bump decision (the source type BumpType without its auto member,
which only selects between explicit and classified bumps). -/
inductive BumpType where
  | major
  | minor
  | patch
deriving DecidableEq

/-- The version bump of lines 209-231: parse, apply the bump rules,
re-render without any pre-release suffix; non-matching input fails with
a message containing the offending string. -/
def semverBump (v : List Char) (type : BumpType) : Except (List Char) (List Char) :=
  match parseSemver v with
  | none => Except.error (("Not a semver version: ").toList ++ v)
  | some (ma, mi, pa) =>
    match type with
    | .major => Except.ok (renderVersion (ma + 1) 0 0)
    | .minor => Except.ok (renderVersion ma (mi + 1) 0)
    | .patch => Except.ok (renderVersion ma mi (pa + 1))

-- ===========================================================================
-- preserveOperator and the version-bump dependency rewrite
-- (lockstep.ts lines 239-246 and 413-434)
-- ===========================================================================

/-- Range-operator preservation (lines 239-246). -/
def preserveOperator (oldRange newVersion : List Char) : List Char :=
  if ['^'].isPrefixOf oldRange then '^' :: newVersion
  else if ['~'].isPrefixOf oldRange then '~' :: newVersion
  else if ['>', '='].isPrefixOf oldRange then '>' :: '=' :: newVersion
  else if ['='].isPrefixOf oldRange then '=' :: newVersion
  else newVersion

/-- The per-field rewrite of `version` (lines 426-431): internal
dependencies with a string range get `preserveOperator(range, next)`;
external dependencies and non-string ranges are left untouched. -/
def updateDeps (internalNames : List String) (next : List Char)
    (deps : List (String × RangeVal)) : List (String × RangeVal) :=
  deps.map (fun d =>
    if internalNames.contains d.1 then
      match d.2 with
      | RangeVal.str range => (d.1, RangeVal.str (preserveOperator range next))
      | RangeVal.nonStr => d
    else d)

/-- The in-memory package mutation of `version` (lines 417-432): set the
version to `next` and rewrite every dependency field. -/
def bumpPkg (internalNames : List String) (next : List Char) (p : PackageJson) :
    PackageJson :=
  { p with
    version := next
    dependencies := updateDeps internalNames next p.dependencies
    devDependencies := updateDeps internalNames next p.devDependencies
    peerDependencies := updateDeps internalNames next p.peerDependencies
    optionalDependencies := updateDeps internalNames next p.optionalDependencies }

-- ===========================================================================
-- Commit classification (determineVersionType, lockstep.ts lines 340-379)
-- ===========================================================================

/-- Substring containment, as the JS includes method checks it: `pat`
occurs contiguously. -/
def containsSub (pat : List Char) : List Char → Bool
  | [] => pat.isEmpty
  | c :: tail => pat.isPrefixOf (c :: tail) || containsSub pat tail

/-- After an opening parenthesis and at least one scope character, scan
for `):`; the regex `.` matches any character except a newline, and `.+`
may include further parentheses. -/
def scanClose : List Char → Bool
  | ')' :: ':' :: _ => true
  | c :: cs => (c != '\n') && scanClose cs
  | [] => false

/-- After the keyword: either a colon immediately, or a parenthesized
non-empty scope followed by a colon. -/
def afterScope : List Char → Bool
  | ':' :: _ => true
  | '(' :: c :: cs => (c != '\n') && scanClose cs
  | _ => false

/-- Anchored conventional-commit pattern for a literal keyword `kw`,
optionally with a parenthesized scope, ending in a colon. -/
def matchType (kw : String) (line : List Char) : Bool :=
  kw.toList.isPrefixOf line && afterScope (line.drop kw.toList.length)

/-- Lines 348: literal substring `BREAKING CHANGE` or `!:`. -/
def isBreakingLine (line : List Char) : Bool :=
  containsSub (("BREAKING CHANGE").toList) line || containsSub (("!:").toList) line

/-- Line 354: the feat pattern with optional scope. -/
def isFeatLine (line : List Char) : Bool := matchType ("feat") line

def maintKeywords : List String := ["fix", "docs", "style", "refactor", "test", "chore"]

/-- Line 360: the maintenance-keyword pattern with optional scope. -/
def isFixLine (line : List Char) : Bool :=
  maintKeywords.any (fun kw => matchType kw line)

/-- The flag-accumulating scan of lines 340-364: each line is checked for
BREAKING, else FEATURE, else FIX (the `continue` statements make the
checks mutually exclusive per line). -/
def classifyFlags : List (List Char) → Bool → Bool → Bool → Bool × Bool × Bool
  | [], hasBreaking, hasFeature, hasFix => (hasBreaking, hasFeature, hasFix)
  | line :: rest, hasBreaking, hasFeature, hasFix =>
    if isBreakingLine line then classifyFlags rest true hasFeature hasFix
    else if isFeatLine line then classifyFlags rest hasBreaking true hasFix
    else if isFixLine line then classifyFlags rest hasBreaking hasFeature true
    else classifyFlags rest hasBreaking hasFeature hasFix

/-- The classification core of `determineVersionType` over the commit
subject lines (lines 340-379): accumulate the three flags, then resolve
precedence BREAKING > FEATURE > FIX > default patch. -/
def classify (commitLines : List (List Char)) : BumpType :=
  let flags := classifyFlags commitLines false false false
  if flags.1 then BumpType.major
  else if flags.2.1 then BumpType.minor
  else if flags.2.2 then BumpType.patch
  else BumpType.patch

/-- Modelled from the spec (section 4.3b): a line is flagged BREAKING when
it contains the breaking markers. -/
def flaggedBreaking (line : List Char) : Bool := isBreakingLine line

/-- Modelled from the spec: FEATURE is flagged only when BREAKING was not
(first-match exclusivity per line). -/
def flaggedFeature (line : List Char) : Bool := !isBreakingLine line && isFeatLine line

/-- Modelled from the spec: FIX is flagged only when neither BREAKING nor
FEATURE was. -/
def flaggedFixLike (line : List Char) : Bool :=
  !isBreakingLine line && !isFeatLine line && isFixLine line

/-- Modelled from the spec, section 4.3b, description of classify: any
breaking line
forces major; else any feature line forces minor; else any fix line or no
matching line at all gives patch. -/
def classifySpec (lines : List (List Char)) : BumpType :=
  if lines.any flaggedBreaking then BumpType.major
  else if lines.any flaggedFeature then BumpType.minor
  else if lines.any flaggedFixLike then BumpType.patch
  else BumpType.patch

-- ===========================================================================
-- publish dist-tag resolution (lockstep.ts lines 477-479)
-- ===========================================================================

/-- The dist-tag resolution of publish (line 479): the literal tag
latest is kept unchanged, any other tag is prefixed with the current
branch name and a dash. -/
def finalTag (tag branch : List Char) : List Char :=
  if tag = ("latest").toList then ("latest").toList else branch ++ '-' :: tag

-- ===========================================================================
-- topoSort (lockstep.ts lines 256-290): Kahn-style dependency ordering
-- ===========================================================================

/-- The in-degree map (JS numbers holding small integers). -/
abbrev IntMap := List (String × Int)

/-- In-degree map initialization (line 258): every package name is
bound to zero. -/
def initDeg : IntMap → List String → IntMap
  | m, [] => m
  | m, n :: ns => initDeg (mapSet m n 0) ns

/-- One pass of the in-degree increment over an adjacency list
(lines 261-265, inner loop). -/
def bumpList : IntMap → List String → IntMap
  | m, [] => m
  | m, v :: vs => bumpList (mapSet m v ((mapGet m v).getD 0 + 1)) vs

/-- Lines 261-265: accumulate in-degrees by iterating every adjacency
list of the graph. -/
def addEdges : IntMap → Graph → IntMap
  | m, [] => m
  | m, e :: g => addEdges (bumpList m e.2) g

/-- Lines 277-281: process the out-edges of a dequeued node — decrement
each target (`inDeg.get(v)! - 1`), returning the updated map and the
targets that reached exactly zero, in processing order (those are pushed
onto the work queue). -/
def relaxEdges : IntMap → List String → IntMap × List String
  | m, [] => (m, [])
  | m, v :: vs =>
    let d := (mapGet m v).getD 0 - 1
    let r := relaxEdges (mapSet m v d) vs
    (r.1, if d = 0 then v :: r.2 else r.2)

/-- The work-queue loop (lines 272-282), with explicit fuel.
Each iteration dequeues one name, appends it to the output and enqueues
the targets newly at in-degree zero.  A stability lemma below shows
the fuel chosen in `topoSort` never runs out, so this is the exact
behaviour of the source loop. -/
def topoLoop (g : Graph) : Nat → List String → IntMap → List String → List String
  | 0, _, _, out => out
  | _ + 1, [], _, out => out
  | fuel + 1, n :: rest, m, out =>
    let r := relaxEdges m (graphGet g n)
    topoLoop g fuel (rest ++ r.2) r.1 (out ++ [n])

/-- Total number of recorded edges. -/
def totalEdges (g : Graph) : Nat := (g.map (fun e => e.2.length)).sum

/-- The topological sort of lines 256-290: Kahn-style processing over
the dependency → dependents graph; if the emitted sequence is shorter
than the package count, fail with the cycle error, else return the
order. -/
def topoSort (pkgs : List WorkspacePackage) (g : Graph) :
    Except (List Char) (List String) :=
  let inDeg := addEdges (initDeg [] (pkgs.map (fun p => p.name))) g
  let q := (pkgs.map (fun p => p.name)).filter (fun n => (mapGet inDeg n).getD 0 = 0)
  let out := topoLoop g (pkgs.length + totalEdges g + 1) q inDeg []
  if out.length ≠ pkgs.length then
    Except.error (("Cycle detected in local dependency graph.").toList)
  else Except.ok out

-- ===========================================================================
-- Specification-side accounting for the topological sort proofs
-- ===========================================================================

/-- Sum of the positive parts of the in-degree map: the termination
measure of the loop. -/
def degSum (m : IntMap) : Nat := (m.map (fun e => e.2.toNat)).sum

/-- The number of edges into `v` whose source is not in `out` (each
graph entry whose key is outside `out` contributes the occurrences of
`v` in its adjacency list). -/
def remInto (out : List String) : Graph → String → Nat
  | [], _ => 0
  | e :: g, v => (if e.1 ∈ out then 0 else e.2.count v) + remInto out g v

-- ===========================================================================
-- Derived instances and concrete inputs used by the witnesses
-- ===========================================================================

deriving instance DecidableEq for Except

/-- Number of occurrences of `d` as a dependency key across all four
dependency fields of a manifest. -/
def depKeyCount (p : PackageJson) (d : String) : Nat :=
  ((depFieldsOf p).map (fun deps => (deps.map Prod.fst).count d)).sum

/-- Invariant of the `topoSort` work loop: `out` is the emitted prefix,
`q` the pending queue, `m` the current in-degree map.  The in-degree of
every package name equals the number of graph edges into it from
not-yet-emitted sources; the remaining in-degree of a name is zero
exactly when it has been emitted or is queued; and every emitted name
appears after all sources of its in-edges. -/
structure KahnInv (g : Graph) (names : List String) (q : List String) (m : IntMap)
    (out : List String) : Prop where
  nodup : (out ++ q).Nodup
  out_sub : ∀ x ∈ out, x ∈ names
  q_sub : ∀ x ∈ q, x ∈ names
  deg : ∀ v ∈ names, mapGet m v = some ((remInto out g v : Int))
  zero_iff : ∀ v ∈ names, (remInto out g v = 0 ↔ (v ∈ out ∨ v ∈ q))
  order : ∀ v ∈ out, ∀ u, v ∈ graphGet g u → u ∈ out ∧ out.indexOf u < out.indexOf v

/-- A concrete one-package workspace used by witnesses. -/
def wsOneA : WorkspacePackage :=
  { name := "a", version := ("1.0.0").toList,
    data := { name := "a", version := ("1.0.0").toList, dependencies := [],
              devDependencies := [], peerDependencies := [],
              optionalDependencies := [] } }

/-- A concrete second package with a different version. -/
def wsTwoB : WorkspacePackage :=
  { name := "b", version := ("2.0.0").toList,
    data := { name := "b", version := ("2.0.0").toList, dependencies := [],
              devDependencies := [], peerDependencies := [],
              optionalDependencies := [] } }

/-- C5 counterexample input: a package that lists itself as a dependency. -/
def selfDepPkg : WorkspacePackage :=
  { name := "a", version := ("1.0.0").toList,
    data := { name := "a", version := ("1.0.0").toList,
              dependencies := [("a", RangeVal.str (("^1.0.0").toList))],
              devDependencies := [], peerDependencies := [],
              optionalDependencies := [] } }

/-- C5 counterexample input: a second package whose dependency on the
member a carries a non-string range value. -/
def nonStrRangePkg : WorkspacePackage :=
  { name := "b", version := ("1.0.0").toList,
    data := { name := "b", version := ("1.0.0").toList,
              dependencies := [("a", RangeVal.nonStr)],
              devDependencies := [], peerDependencies := [],
              optionalDependencies := [] } }

/-- Helper to build small concrete workspaces. -/
def mkPkg (nm : String) (deps dev : List (String × RangeVal)) : WorkspacePackage :=
  { name := nm, version := ("1.0.0").toList,
    data := { name := nm, version := ("1.0.0").toList, dependencies := deps,
              devDependencies := dev, peerDependencies := [],
              optionalDependencies := [] } }

/-- Chain workspace: a depends on b, b depends on c. -/
def chainPkgs : List WorkspacePackage :=
  [mkPkg ("a") [("b", RangeVal.str (("^1.0.0").toList))] [],
   mkPkg ("b") [("c", RangeVal.str (("~1.0.0").toList))] [],
   mkPkg ("c") [] []]

/-- Mutual-dependency workspace: a and b depend on each other. -/
def cycPkgs : List WorkspacePackage :=
  [mkPkg ("a") [("b", RangeVal.str (("^1.0.0").toList))] [],
   mkPkg ("b") [("a", RangeVal.str (("^1.0.0").toList))] []]

/-- Duplicate-edge workspace: b lists a both as a runtime and a dev
dependency, so the adjacency list of a holds b twice. -/
def dupPkgs : List WorkspacePackage :=
  [mkPkg ("a") [] [],
   mkPkg ("b") [("a", RangeVal.str (("^1.0.0").toList))]
     [("a", RangeVal.str (("^1.0.0").toList))]]


lemma contains_iff_mem (l : List String) (a : String) : l.contains a = true ↔ a ∈ l := by
  simp [List.contains, List.elem_iff]

-- ============ C7 ============

/-- C7: the final publish dist-tag equals the input tag exactly when
the input tag is the literal latest; any other tag is prefixed with the
current branch and a dash, with no special case for default branches. -/
theorem finalTag_latest_iff (tag branch : List Char) :
    (finalTag tag branch = tag ↔ tag = ("latest").toList) ∧
    (tag ≠ ("latest").toList → finalTag tag branch = branch ++ '-' :: tag) := by
  constructor
  · constructor
    · intro h
      by_contra hne
      rw [finalTag, if_neg hne] at h
      have hlen := congrArg List.length h
      simp [List.length_append] at hlen
      omega
    · intro h
      rw [finalTag, if_pos h, h]
  · intro hne
    rw [finalTag, if_neg hne]

theorem finalTag_latest_iff_witness :
    finalTag (("alpha").toList) (("feature-x").toList) = ("feature-x-alpha").toList ∧
    finalTag (("latest").toList) (("main").toList) = ("latest").toList := by
  constructor
  · rw [(finalTag_latest_iff (("alpha").toList) (("feature-x").toList)).2 (by decide)]
    decide
  · rw [(finalTag_latest_iff (("latest").toList) (("main").toList)).1.mpr (by decide)]

-- ============ C10 ============

/-- C10: on the empty package list the set of distinct versions has
size zero, not one, so `ensureAllSameVersion` throws the
inconsistent-versions error instead of succeeding vacuously. -/
theorem ensureAllSameVersion_empty_fails :
    ensureAllSameVersion [] =
      Except.error (("Lockstep requires all packages have the same version. Found: ").toList) := by
  decide

-- ============ C3 ============

lemma classifyFlags_eq (lines : List (List Char)) :
    ∀ b f x, classifyFlags lines b f x =
      (b || lines.any flaggedBreaking, f || lines.any flaggedFeature,
        x || lines.any flaggedFixLike) := by
  induction lines with
  | nil => intro b f x; simp [classifyFlags]
  | cons line rest ih =>
    intro b f x
    simp only [classifyFlags, List.any_cons]
    by_cases hb : isBreakingLine line
    · rw [if_pos hb, ih]
      simp [flaggedBreaking, flaggedFeature, flaggedFixLike, hb]
    · rw [if_neg hb]
      by_cases hf : isFeatLine line
      · rw [if_pos hf, ih]
        simp only [flaggedBreaking, flaggedFeature, flaggedFixLike]
        simp [Bool.not_eq_true] at hb
        simp [hb, hf]
      · rw [if_neg hf]
        by_cases hx : isFixLine line
        · rw [if_pos hx, ih]
          simp only [flaggedBreaking, flaggedFeature, flaggedFixLike]
          simp [Bool.not_eq_true] at hb hf
          simp [hb, hf, hx]
        · rw [if_neg hx, ih]
          simp only [flaggedBreaking, flaggedFeature, flaggedFixLike]
          simp [Bool.not_eq_true] at hb hf hx
          simp [hb, hf, hx]

/-- C3: `classify` accumulates the three flags over the whole line
sequence with per-line first-match exclusivity and resolves
BREAKING > FEATURE > FIX > default-patch, matching the spec-side
`classifySpec`; the four concrete examples from the spec also hold. -/
theorem classify_matches_spec :
    (∀ lines, classify lines = classifySpec lines) ∧
    classify [("feat: x").toList, ("fix: y").toList] = BumpType.minor ∧
    classify [("fix: y").toList, ("chore: z").toList] = BumpType.patch ∧
    classify [("feat!: x").toList] = BumpType.major ∧
    classify [("BREAKING CHANGE: x").toList] = BumpType.major ∧
    classify [] = BumpType.patch := by
  refine ⟨?_, by decide, by decide, by decide, by decide, by decide⟩
  intro lines
  rw [classify, classifyFlags_eq, classifySpec]
  simp

-- ============ C4 ============

/-- C4: `semverBump` on any input matched by the semver pattern performs
the component arithmetic and discards any pre-release suffix; any
non-matching input fails with a message containing the offending string;
the five concrete examples from the spec hold. -/
theorem semverBump_spec :
    (∀ v ma mi pa, parseSemver v = some (ma, mi, pa) →
       semverBump v BumpType.major = Except.ok (renderVersion (ma + 1) 0 0) ∧
       semverBump v BumpType.minor = Except.ok (renderVersion ma (mi + 1) 0) ∧
       semverBump v BumpType.patch = Except.ok (renderVersion ma mi (pa + 1))) ∧
    (∀ v k, parseSemver v = none →
       semverBump v k = Except.error (("Not a semver version: ").toList ++ v)) ∧
    semverBump (("1.2.3").toList) BumpType.patch = Except.ok (("1.2.4").toList) ∧
    semverBump (("1.2.3").toList) BumpType.minor = Except.ok (("1.3.0").toList) ∧
    semverBump (("1.2.3").toList) BumpType.major = Except.ok (("2.0.0").toList) ∧
    semverBump (("1.2.3-alpha.1").toList) BumpType.patch = Except.ok (("1.2.4").toList) ∧
    (∃ msg, semverBump (("invalid").toList) BumpType.patch = Except.error msg ∧
       (("invalid").toList).IsSuffix msg) := by
  refine ⟨?_, ?_, by decide, by decide, by decide, by decide,
    ⟨(("Not a semver version: invalid").toList), by decide,
      ⟨(("Not a semver version: ").toList), by decide⟩⟩⟩
  · intro v ma mi pa h
    refine ⟨?_, ?_, ?_⟩ <;> simp [semverBump, h]
  · intro v k h
    simp [semverBump, h]

theorem semverBump_spec_witness :
    semverBump (("9.9.9").toList) BumpType.major = Except.ok (renderVersion 10 0 0) ∧
    semverBump (("x.2.3").toList) BumpType.minor =
      Except.error (("Not a semver version: ").toList ++ ("x.2.3").toList) := by
  constructor
  · exact (semverBump_spec.1 (("9.9.9").toList) 9 9 9 (by decide)).1
  · exact semverBump_spec.2.1 (("x.2.3").toList) BumpType.minor (by decide)

-- ============ C8 ============

lemma addToSet_mem (acc : List (List Char)) (v x : List Char) :
    x ∈ addToSet acc v ↔ x ∈ acc ∨ x = v := by
  unfold addToSet
  split
  · constructor
    · exact fun h => Or.inl h
    · rintro (h | rfl)
      · exact h
      · assumption
  · simp

lemma jsSetAux_mem (l : List (List Char)) :
    ∀ acc x, x ∈ jsSetAux acc l ↔ x ∈ acc ∨ x ∈ l := by
  induction l with
  | nil => intro acc x; simp [jsSetAux]
  | cons v vs ih =>
    intro acc x
    rw [jsSetAux, ih, addToSet_mem]
    simp [or_assoc]

lemma addToSet_nodup (acc : List (List Char)) (v : List Char) (h : acc.Nodup) :
    (addToSet acc v).Nodup := by
  unfold addToSet
  split
  · exact h
  · simp_all [List.nodup_append]

lemma jsSetAux_nodup (l : List (List Char)) :
    ∀ acc, acc.Nodup → (jsSetAux acc l).Nodup := by
  induction l with
  | nil => intro acc h; exact h
  | cons v vs ih => intro acc h; exact ih _ (addToSet_nodup _ _ h)

lemma jsSetOf_mem (l : List (List Char)) (x : List Char) :
    x ∈ jsSetOf l ↔ x ∈ l := by
  rw [jsSetOf, jsSetAux_mem]
  simp

lemma jsSetOf_nodup (l : List (List Char)) : (jsSetOf l).Nodup :=
  jsSetAux_nodup l [] List.nodup_nil

lemma jsSetAux_const (v : List Char) (l : List (List Char)) (h : ∀ w ∈ l, w = v) :
    jsSetAux [v] l = [v] := by
  induction l with
  | nil => rfl
  | cons w ws ih =>
    have hw : w = v := h w (List.mem_cons_self _ _)
    rw [jsSetAux, hw]
    have : addToSet [v] v = [v] := by simp [addToSet]
    rw [this]
    exact ih (fun w hw2 => h w (List.mem_cons_of_mem _ hw2))

lemma jsSetOf_all_eq (l : List (List Char)) (v : List Char) (hne : l ≠ [])
    (h : ∀ w ∈ l, w = v) : jsSetOf l = [v] := by
  cases l with
  | nil => exact absurd rfl hne
  | cons w ws =>
    have hw : w = v := h w (List.mem_cons_self _ _)
    rw [jsSetOf, jsSetAux, hw]
    have : addToSet [] v = [v] := by simp [addToSet]
    rw [this]
    exact jsSetAux_const v ws (fun u hu => h u (List.mem_cons_of_mem _ hu))

/-- C8: with a non-empty workspace of identical versions,
`ensureAllSameVersion` returns the common version; as soon as two
records disagree it fails with the inconsistent-versions error listing
exactly the distinct versions found. -/
theorem ensureAllSameVersion_spec :
    (∀ (ps : List WorkspacePackage) (v : List Char), ps ≠ [] →
        (∀ p ∈ ps, p.version = v) → ensureAllSameVersion ps = Except.ok v) ∧
    (∀ (ps : List WorkspacePackage), ∀ p ∈ ps, ∀ q ∈ ps, p.version ≠ q.version →
        ensureAllSameVersion ps =
          Except.error ((("Lockstep requires all packages have the same version. Found: ").toList)
            ++ List.intercalate ((", ").toList) (jsSetOf (ps.map (fun r => r.version)))) ∧
        (jsSetOf (ps.map (fun r => r.version))).Nodup ∧
        (∀ w, w ∈ jsSetOf (ps.map (fun r => r.version)) ↔ w ∈ ps.map (fun r => r.version))) := by
  constructor
  · intro ps v hne hall
    have hs : jsSetOf (ps.map (fun r => r.version)) = [v] := by
      apply jsSetOf_all_eq
      · simp [hne]
      · intro w hw
        obtain ⟨p, hp, rfl⟩ := List.mem_map.mp hw
        exact hall p hp
    unfold ensureAllSameVersion
    rw [hs]
  · intro ps p hp q hq hpq
    have hpmem : p.version ∈ jsSetOf (ps.map (fun r => r.version)) :=
      (jsSetOf_mem _ _).mpr (List.mem_map.mpr ⟨p, hp, rfl⟩)
    have hqmem : q.version ∈ jsSetOf (ps.map (fun r => r.version)) :=
      (jsSetOf_mem _ _).mpr (List.mem_map.mpr ⟨q, hq, rfl⟩)
    refine ⟨?_, jsSetOf_nodup _, fun w => jsSetOf_mem _ w⟩
    unfold ensureAllSameVersion
    rcases hs : jsSetOf (ps.map (fun r => r.version)) with _ | ⟨a, _ | ⟨b, t⟩⟩
    · rw [hs] at hpmem
      exact absurd hpmem (List.not_mem_nil _)
    · rw [hs] at hpmem hqmem
      simp at hpmem hqmem
      exact absurd (hpmem.trans hqmem.symm) hpq
    · rw [hs]

theorem ensureAllSameVersion_spec_witness :
    ensureAllSameVersion [wsOneA] = Except.ok (("1.0.0").toList) ∧
    ensureAllSameVersion [wsOneA, wsTwoB] =
      Except.error
        (("Lockstep requires all packages have the same version. Found: 1.0.0, 2.0.0").toList) := by
  constructor
  · exact ensureAllSameVersion_spec.1 [wsOneA] (("1.0.0").toList) (by decide) (by decide)
  · have h := (ensureAllSameVersion_spec.2 [wsOneA, wsTwoB] wsOneA
      (by decide) wsTwoB (by decide) (by decide)).1
    rw [h]
    decide

-- ============ C6 ============

/-- C6: during a version bump, every internal dependency with a string
range is rewritten operator-preservingly to the new version, and every
external dependency keeps its range untouched, across all four
dependency fields. -/
theorem version_rewrites_internal_only :
    (∀ (names : List String) (next : List Char) (p : PackageJson),
        (bumpPkg names next p).version = next ∧
        depFieldsOf (bumpPkg names next p) = (depFieldsOf p).map (updateDeps names next)) ∧
    (∀ (names : List String) (next : List Char) (deps : List (String × RangeVal))
        (i : Nat) (nm : String) (r : List Char),
        deps[i]? = some (nm, RangeVal.str r) → names.contains nm = true →
        (updateDeps names next deps)[i]? =
          some (nm, RangeVal.str (preserveOperator r next))) ∧
    (∀ (names : List String) (next : List Char) (deps : List (String × RangeVal))
        (i : Nat) (d : String × RangeVal),
        deps[i]? = some d → names.contains d.1 = false →
        (updateDeps names next deps)[i]? = some d) := by
  refine ⟨?_, ?_, ?_⟩
  · intro names next p
    exact ⟨rfl, by simp [bumpPkg, depFieldsOf]⟩
  · intro names next deps i nm r hi hc
    have hm : nm ∈ names := (contains_iff_mem _ _).mp hc
    simp [updateDeps, List.getElem?_map, hi, hm]
  · intro names next deps i d hi hc
    have hm : d.1 ∉ names := by
      intro hmem
      rw [← contains_iff_mem] at hmem
      rw [hc] at hmem
      exact Bool.false_ne_true hmem
    simp [updateDeps, List.getElem?_map, hi, hm]

theorem version_rewrites_internal_only_witness :
    (updateDeps ["a", "b"] (("1.1.0").toList)
        [("a", RangeVal.str (("^1.0.0").toList)), ("lodash", RangeVal.str (("~4.0.0").toList))])[0]? =
      some ("a", RangeVal.str (preserveOperator (("^1.0.0").toList) (("1.1.0").toList))) ∧
    (updateDeps ["a", "b"] (("1.1.0").toList)
        [("a", RangeVal.str (("^1.0.0").toList)), ("lodash", RangeVal.str (("~4.0.0").toList))])[1]? =
      some ("lodash", RangeVal.str (("~4.0.0").toList)) := by
  constructor
  · exact version_rewrites_internal_only.2.1 ["a", "b"] (("1.1.0").toList) _ 0 ("a")
      (("^1.0.0").toList) (by decide) (by decide)
  · exact version_rewrites_internal_only.2.2 ["a", "b"] (("1.1.0").toList) _ 1
      ("lodash", RangeVal.str (("~4.0.0").toList)) (by decide) (by decide)

-- ============ Map and graph basic lemmas ============

lemma mapGet_set_self {α : Type} (m : List (String × α)) (k : String) (v : α) :
    mapGet (mapSet m k v) k = some v := by
  induction m with
  | nil => simp [mapSet, mapGet]
  | cons e es ih =>
    by_cases h : e.1 = k
    · simp [mapSet, mapGet, h]
    · simp [mapSet, mapGet, h, ih]

lemma mapGet_set_ne {α : Type} (m : List (String × α)) (k k' : String) (v : α)
    (h : k' ≠ k) : mapGet (mapSet m k v) k' = mapGet m k' := by
  induction m with
  | nil =>
    simp only [mapSet, mapGet]
    rw [if_neg (fun hh => h hh.symm)]
  | cons e es ih =>
    by_cases he : e.1 = k
    · subst he
      simp only [mapSet, if_pos rfl, mapGet]
      rw [if_neg (fun hh => h hh.symm), if_neg (fun hh => h hh.symm)]
    · simp only [mapSet, if_neg he]
      by_cases he' : e.1 = k'
      · simp [mapGet, he']
      · simp [mapGet, he', ih]

lemma mapGet_none_of_not_mem_keys {α : Type} (m : List (String × α)) (k : String)
    (h : k ∉ m.map Prod.fst) : mapGet m k = none := by
  induction m with
  | nil => rfl
  | cons e es ih =>
    simp only [List.map_cons, List.mem_cons] at h
    push_neg at h
    rw [mapGet, if_neg (fun hh => h.1 hh.symm), ih h.2]

lemma mapGet_some_mem {α : Type} (m : List (String × α)) (k : String) (v : α)
    (h : mapGet m k = some v) : (k, v) ∈ m := by
  induction m with
  | nil => simp [mapGet] at h
  | cons e es ih =>
    rw [mapGet] at h
    by_cases he : e.1 = k
    · rw [if_pos he] at h
      injection h with h
      exact List.mem_cons.mpr (Or.inl (by rw [← he, ← h]))
    · rw [if_neg he] at h
      exact List.mem_cons_of_mem _ (ih h)

lemma mapGet_some_mem_keys {α : Type} (m : List (String × α)) (k : String) (v : α)
    (h : mapGet m k = some v) : k ∈ m.map Prod.fst :=
  List.mem_map.mpr ⟨(k, v), mapGet_some_mem m k v h, rfl⟩

lemma graphGet_ne_nil_mem_keys (g : Graph) (u : String) (h : graphGet g u ≠ []) :
    u ∈ g.map Prod.fst := by
  rw [graphGet] at h
  rcases hg : mapGet g u with _ | vs
  · rw [hg] at h
    simp at h
  · exact mapGet_some_mem_keys g u vs hg

lemma mapSet_keys_mem {α : Type} (m : List (String × α)) (k : String) (v : α)
    (h : k ∈ m.map Prod.fst) : (mapSet m k v).map Prod.fst = m.map Prod.fst := by
  induction m with
  | nil => simp at h
  | cons e es ih =>
    by_cases he : e.1 = k
    · simp [mapSet, he]
    · simp only [List.map_cons, List.mem_cons] at h
      rcases h with h | h
      · exact absurd h.symm he
      · simp [mapSet, he, ih h]

lemma mapSet_keys_new {α : Type} (m : List (String × α)) (k : String) (v : α)
    (h : k ∉ m.map Prod.fst) : (mapSet m k v).map Prod.fst = m.map Prod.fst ++ [k] := by
  induction m with
  | nil => simp [mapSet]
  | cons e es ih =>
    simp only [List.map_cons, List.mem_cons] at h
    push_neg at h
    have hne : e.1 ≠ k := fun hh => h.1 hh.symm
    simp [mapSet, hne, ih h.2]

lemma mapSet_keys_sub {α : Type} (m : List (String × α)) (k : String) (v : α) :
    ∀ x ∈ (mapSet m k v).map Prod.fst, x ∈ m.map Prod.fst ∨ x = k := by
  by_cases h : k ∈ m.map Prod.fst
  · rw [mapSet_keys_mem m k v h]
    exact fun x hx => Or.inl hx
  · rw [mapSet_keys_new m k v h]
    intro x hx
    rcases List.mem_append.mp hx with hx | hx
    · exact Or.inl hx
    · simp at hx
      exact Or.inr hx

lemma mapSet_keys_super {α : Type} (m : List (String × α)) (k : String) (v : α) :
    ∀ x, (x ∈ m.map Prod.fst ∨ x = k) → x ∈ (mapSet m k v).map Prod.fst := by
  by_cases h : k ∈ m.map Prod.fst
  · rw [mapSet_keys_mem m k v h]
    rintro x (hx | rfl)
    · exact hx
    · exact h
  · rw [mapSet_keys_new m k v h]
    rintro x (hx | rfl)
    · exact List.mem_append.mpr (Or.inl hx)
    · exact List.mem_append.mpr (Or.inr (by simp))

lemma graphPush_keys (g : Graph) (k x : String) :
    (graphPush g k x).map Prod.fst = g.map Prod.fst := by
  induction g with
  | nil => rfl
  | cons e es ih =>
    by_cases he : e.1 = k
    · simp [graphPush, he]
    · simp [graphPush, he, ih]

lemma graphPush_get_self (g : Graph) (k x : String) (h : k ∈ g.map Prod.fst) :
    graphGet (graphPush g k x) k = graphGet g k ++ [x] := by
  induction g with
  | nil => simp at h
  | cons e es ih =>
    by_cases he : e.1 = k
    · simp [graphPush, he, graphGet, mapGet]
    · simp only [List.map_cons, List.mem_cons] at h
      rcases h with h | h
      · exact absurd h.symm he
      · simp [graphPush, he, graphGet, mapGet]
        exact ih h

lemma graphPush_get_ne (g : Graph) (k k' x : String) (h : k' ≠ k) :
    graphGet (graphPush g k x) k' = graphGet g k' := by
  induction g with
  | nil => rfl
  | cons e es ih =>
    by_cases he : e.1 = k
    · have hne : e.1 ≠ k' := fun hh => h (hh.symm.trans he)
      simp only [graphPush, if_pos he, graphGet, mapGet]
      rw [he, if_neg (fun hh => h hh.symm), if_neg (fun hh => h hh.symm)]
    · by_cases he' : e.1 = k'
      · simp only [graphPush, if_neg he, graphGet, mapGet]
        rw [if_pos he', if_pos he']
      · simp only [graphPush, if_neg he, graphGet, mapGet]
        rw [if_neg he', if_neg he']
        exact ih

-- ============ buildGraph structure lemmas ============

lemma graphPush_missing (g : Graph) (k x : String) (h : k ∉ g.map Prod.fst) :
    graphPush g k x = g := by
  induction g with
  | nil => rfl
  | cons e es ih =>
    simp only [List.map_cons, List.mem_cons] at h
    push_neg at h
    rw [graphPush, if_neg (fun hh => h.1 hh.symm), ih h.2]

lemma addDeps_keys (names : List String) (pname : String) (ds : List (String × RangeVal)) :
    ∀ g, (addDeps names pname g ds).map Prod.fst = g.map Prod.fst := by
  induction ds with
  | nil => intro g; rfl
  | cons d ds ih =>
    intro g
    rw [addDeps, ih]
    split
    · exact graphPush_keys g d.1 pname
    · rfl

lemma addFields_keys (names : List String) (pname : String)
    (fs : List (List (String × RangeVal))) :
    ∀ g, (addFields names pname g fs).map Prod.fst = g.map Prod.fst := by
  induction fs with
  | nil => intro g; rfl
  | cons f fs ih =>
    intro g
    rw [addFields, ih, addDeps_keys]

lemma addAllPkgs_keys (names : List String) (ps : List WorkspacePackage) :
    ∀ g, (addAllPkgs names g ps).map Prod.fst = g.map Prod.fst := by
  induction ps with
  | nil => intro g; rfl
  | cons p ps ih =>
    intro g
    rw [addAllPkgs, ih, addFields_keys]

lemma initGraph_get_nil (ps : List WorkspacePackage) :
    ∀ g, (∀ k, graphGet g k = []) → ∀ k, graphGet (initGraph g ps) k = [] := by
  induction ps with
  | nil => intro g h k; exact h k
  | cons p ps ih =>
    intro g h k
    rw [initGraph]
    apply ih
    intro k'
    by_cases hk : k' = p.name
    · rw [hk, graphGet, mapGet_set_self]
      rfl
    · rw [graphGet, mapGet_set_ne _ _ _ _ hk]
      exact h k'

lemma initGraph_keys_super (ps : List WorkspacePackage) :
    ∀ g x, (x ∈ g.map Prod.fst ∨ x ∈ ps.map (fun p => p.name)) →
      x ∈ (initGraph g ps).map Prod.fst := by
  induction ps with
  | nil =>
    intro g x h
    rcases h with h | h
    · exact h
    · simp at h
  | cons p ps ih =>
    intro g x h
    rw [initGraph]
    apply ih
    rcases h with h | h
    · exact Or.inl (mapSet_keys_super g p.name [] x (Or.inl h))
    · simp only [List.map_cons, List.mem_cons] at h
      rcases h with h | h
      · exact Or.inl (mapSet_keys_super g p.name [] x (Or.inr h))
      · exact Or.inr h

lemma initGraph_keys_nodup_eq (ps : List WorkspacePackage) :
    ∀ g, (ps.map (fun p => p.name)).Nodup →
      (∀ p ∈ ps, p.name ∉ g.map Prod.fst) →
      (initGraph g ps).map Prod.fst = g.map Prod.fst ++ ps.map (fun p => p.name) := by
  induction ps with
  | nil => intro g _ _; simp [initGraph]
  | cons p ps ih =>
    intro g hnd hnin
    rw [initGraph]
    have hpn : p.name ∉ g.map Prod.fst := hnin p (List.mem_cons_self _ _)
    have hkeys : (mapSet g p.name []).map Prod.fst = g.map Prod.fst ++ [p.name] :=
      mapSet_keys_new g p.name [] hpn
    simp only [List.map_cons] at hnd
    have hnd2 := hnd
    rw [List.nodup_cons] at hnd2
    rw [ih (mapSet g p.name []) hnd2.2 ?_, hkeys]
    · simp
    · intro q hq
      rw [hkeys]
      intro hmem
      rcases List.mem_append.mp hmem with hmem | hmem
      · exact hnin q (List.mem_cons_of_mem _ hq) hmem
      · simp at hmem
        exact hnd2.1 (hmem ▸ List.mem_map.mpr ⟨q, hq, rfl⟩)

/-- Keys of the built graph are exactly the package names, in order. -/
lemma buildGraph_keys (ps : List WorkspacePackage)
    (hnd : (ps.map (fun p => p.name)).Nodup) :
    (buildGraph ps).map Prod.fst = ps.map (fun p => p.name) := by
  rw [buildGraph, addAllPkgs_keys, initGraph_keys_nodup_eq ps [] hnd (by simp)]
  rfl

/-- Every adjacency entry of the built graph is a package name. -/
lemma buildGraph_adj_sub (ps : List WorkspacePackage) :
    ∀ u v, v ∈ graphGet (buildGraph ps) u → v ∈ ps.map (fun p => p.name) := by
  have push_pres : ∀ (g : Graph) (k x : String),
      (∀ u v, v ∈ graphGet g u → v ∈ ps.map (fun p => p.name)) →
      x ∈ ps.map (fun p => p.name) →
      ∀ u v, v ∈ graphGet (graphPush g k x) u → v ∈ ps.map (fun p => p.name) := by
    intro g k x hg hx u v hv
    by_cases hu : u = k
    · subst hu
      by_cases hk : u ∈ g.map Prod.fst
      · rw [graphPush_get_self g u x hk] at hv
        rcases List.mem_append.mp hv with hv | hv
        · exact hg u v hv
        · simp at hv
          exact hv ▸ hx
      · rw [graphPush_missing g u x hk] at hv
        exact hg u v hv
    · rw [graphPush_get_ne g k u x hu] at hv
      exact hg u v hv
  have deps_pres : ∀ (pname : String) (ds : List (String × RangeVal)) (g : Graph),
      (∀ u v, v ∈ graphGet g u → v ∈ ps.map (fun p => p.name)) →
      pname ∈ ps.map (fun p => p.name) →
      ∀ u v, v ∈ graphGet (addDeps (ps.map (fun p => p.name)) pname g ds) u →
        v ∈ ps.map (fun p => p.name) := by
    intro pname ds
    induction ds with
    | nil => intro g hg _; exact hg
    | cons d ds ih =>
      intro g hg hpn
      rw [addDeps]
      apply ih _ ?_ hpn
      split
      · exact push_pres g d.1 pname hg hpn
      · exact hg
  have fields_pres : ∀ (pname : String) (fs : List (List (String × RangeVal))) (g : Graph),
      (∀ u v, v ∈ graphGet g u → v ∈ ps.map (fun p => p.name)) →
      pname ∈ ps.map (fun p => p.name) →
      ∀ u v, v ∈ graphGet (addFields (ps.map (fun p => p.name)) pname g fs) u →
        v ∈ ps.map (fun p => p.name) := by
    intro pname fs
    induction fs with
    | nil => intro g hg _; exact hg
    | cons f fs ih =>
      intro g hg hpn
      rw [addFields]
      exact ih _ (deps_pres pname f g hg hpn) hpn
  have all_pres : ∀ (ps' : List WorkspacePackage) (g : Graph),
      (∀ u v, v ∈ graphGet g u → v ∈ ps.map (fun p => p.name)) →
      (∀ p ∈ ps', p.name ∈ ps.map (fun p => p.name)) →
      ∀ u v, v ∈ graphGet (addAllPkgs (ps.map (fun p => p.name)) g ps') u →
        v ∈ ps.map (fun p => p.name) := by
    intro ps'
    induction ps' with
    | nil => intro g hg _; exact hg
    | cons p ps' ih =>
      intro g hg hmem
      rw [addAllPkgs]
      exact ih _ (fields_pres p.name (depFieldsOf p.data) g hg
          (hmem p (List.mem_cons_self _ _)))
        (fun q hq => hmem q (List.mem_cons_of_mem _ hq))
  intro u v hv
  refine all_pres ps (initGraph [] ps) ?_ ?_ u v hv
  · intro u' v' hv'
    rw [initGraph_get_nil ps [] (fun k => rfl) u'] at hv'
    exact absurd hv' (List.not_mem_nil _)
  · intro p hp
    exact List.mem_map.mpr ⟨p, hp, rfl⟩

-- ============ C5: edge multiplicity ============

lemma addDeps_count (names : List String) (pname d w : String)
    (ds : List (String × RangeVal)) :
    ∀ g, (∀ n, n ∈ names → n ∈ g.map Prod.fst) →
      (graphGet (addDeps names pname g ds) d).count w =
        (graphGet g d).count w +
          (if d ∈ names ∧ pname = w then (ds.map Prod.fst).count d else 0) := by
  induction ds with
  | nil => intro g _; simp [addDeps]
  | cons d' ds ih =>
    intro g hsub
    rw [addDeps]
    by_cases hc : names.contains d'.1
    · rw [if_pos hc]
      have hd'names : d'.1 ∈ names := (contains_iff_mem _ _).mp hc
      have hkeys : ∀ n, n ∈ names → n ∈ (graphPush g d'.1 pname).map Prod.fst := by
        intro n hn
        rw [graphPush_keys]
        exact hsub n hn
      rw [ih _ hkeys]
      by_cases hdd : d'.1 = d
      · subst hdd
        rw [graphPush_get_self g d'.1 pname (hsub _ hd'names)]
        rw [List.count_append]
        simp only [List.map_cons, List.count_cons]
        split_ifs with h1 h2 <;> simp_all <;> omega
      · rw [graphPush_get_ne g d'.1 d pname (fun hh => hdd hh.symm)]
        simp only [List.map_cons, List.count_cons]
        split_ifs with h1 <;> simp_all
    · rw [if_neg hc]
      rw [ih _ hsub]
      have hdd : d ∈ names → ¬ d'.1 = d := by
        intro hdn hh
        exact hc ((contains_iff_mem _ _).mpr (hh ▸ hdn))
      simp only [List.map_cons, List.count_cons]
      split_ifs with h1 <;> simp_all

lemma addFields_count (names : List String) (pname d w : String)
    (fs : List (List (String × RangeVal))) :
    ∀ g, (∀ n, n ∈ names → n ∈ g.map Prod.fst) →
      (graphGet (addFields names pname g fs) d).count w =
        (graphGet g d).count w +
          (if d ∈ names ∧ pname = w then
            (fs.map (fun f => (f.map Prod.fst).count d)).sum else 0) := by
  induction fs with
  | nil => intro g _; simp [addFields]
  | cons f fs ih =>
    intro g hsub
    rw [addFields]
    have hkeys : ∀ n, n ∈ names → n ∈ (addDeps names pname g f).map Prod.fst := by
      intro n hn
      rw [addDeps_keys]
      exact hsub n hn
    rw [ih _ hkeys, addDeps_count names pname d w f g hsub]
    simp only [List.map_cons, List.sum_cons]
    split_ifs with h1 <;> omega

lemma addAllPkgs_count (names : List String) (d w : String)
    (ps' : List WorkspacePackage) :
    ∀ g, (∀ n, n ∈ names → n ∈ g.map Prod.fst) →
      (graphGet (addAllPkgs names g ps') d).count w =
        (graphGet g d).count w +
          (if d ∈ names then
            ((ps'.filter (fun p => p.name == w)).map
              (fun p => depKeyCount p.data d)).sum else 0) := by
  induction ps' with
  | nil => intro g _; simp [addAllPkgs]
  | cons p ps' ih =>
    intro g hsub
    rw [addAllPkgs]
    have hkeys : ∀ n, n ∈ names →
        n ∈ (addFields names p.name g (depFieldsOf p.data)).map Prod.fst := by
      intro n hn
      rw [addFields_keys]
      exact hsub n hn
    rw [ih _ hkeys, addFields_count names p.name d w (depFieldsOf p.data) g hsub,
      List.filter_cons]
    by_cases hd : d ∈ names <;> by_cases hw : p.name = w <;>
      simp [hd, hw, depKeyCount] <;> omega

/-- C5 counterexample: the claim says a self-dependency and a
dependency with a non-string range are ignored and add no edge; in the
code both add their edge (a self-loop on a, and an edge a → b despite
the non-string range). -/
theorem buildGraph_defensive_cex :
    ("a" ∈ graphGet (buildGraph [selfDepPkg]) "a") ∧
    ("b" ∈ graphGet (buildGraph [wsOneA, nonStrRangePkg]) "a") := by
  decide

/-- C5 amended: an edge dependency → dependent is appended once for
every `(depName, range)` pair of every dependency field of every record
whose `depName` names a workspace member — including self-dependencies
(recorded as self-loop edges) and pairs whose range is not a string (the
range value is never inspected); no error is raised.  Dependency names
that are not workspace members contribute nothing. -/
theorem buildGraph_edge_multiplicity (ps : List WorkspacePackage) (d w : String) :
    (graphGet (buildGraph ps) d).count w =
      if d ∈ ps.map (fun p => p.name) then
        ((ps.filter (fun p => p.name == w)).map (fun p => depKeyCount p.data d)).sum
      else 0 := by
  rw [buildGraph,
    addAllPkgs_count (ps.map (fun p => p.name)) d w ps (initGraph [] ps)
      (fun n hn => initGraph_keys_super ps [] n (Or.inr hn)),
    initGraph_get_nil ps [] (fun k => rfl) d]
  simp

theorem buildGraph_edge_multiplicity_witness :
    (graphGet (buildGraph [selfDepPkg]) "a").count ("a") = 1 := by
  have h := buildGraph_edge_multiplicity [selfDepPkg] "a" "a"
  rw [h]
  decide

-- ============ Measure lemmas for the loop ============

lemma degSum_cons (e : String × Int) (m : IntMap) :
    degSum (e :: m) = e.2.toNat + degSum m := by
  simp [degSum]

lemma relax_one_measure (m : IntMap) (v : String) :
    degSum (mapSet m v ((mapGet m v).getD 0 - 1)) +
      (if (mapGet m v).getD 0 - 1 = 0 then 1 else 0) ≤ degSum m := by
  induction m with
  | nil =>
    simp [mapGet, mapSet, degSum]
  | cons e es ih =>
    by_cases he : e.1 = v
    · rw [mapGet, if_pos he, mapSet, if_pos he]
      rw [degSum_cons, degSum_cons]
      simp only [Option.getD_some]
      by_cases hz : e.2 - 1 = 0
      · rw [if_pos hz]
        omega
      · rw [if_neg hz]
        omega
    · rw [mapGet, if_neg he, mapSet, if_neg he]
      rw [degSum_cons, degSum_cons]
      have := ih
      omega

lemma relaxEdges_measure (vs : List String) :
    ∀ m, degSum (relaxEdges m vs).1 + (relaxEdges m vs).2.length ≤ degSum m := by
  induction vs with
  | nil => intro m; simp [relaxEdges]
  | cons v vs ih =>
    intro m
    rw [relaxEdges]
    dsimp only
    have h1 := relax_one_measure m v
    have h2 := ih (mapSet m v ((mapGet m v).getD 0 - 1))
    by_cases hz : (mapGet m v).getD 0 - 1 = 0
    · rw [if_pos hz] at h1 ⊢
      simp only [List.length_cons]
      omega
    · rw [if_neg hz] at h1 ⊢
      omega

-- ============ relaxEdges specification ============

lemma relaxEdges_get (vs : List String) :
    ∀ (m : IntMap) (v : String) (k : Int), mapGet m v = some k →
      mapGet (relaxEdges m vs).1 v = some (k - (vs.count v : Int)) := by
  induction vs with
  | nil => intro m v k h; simpa [relaxEdges] using h
  | cons v' vs ih =>
    intro m v k h
    rw [relaxEdges]
    by_cases hv : v' = v
    · subst hv
      have hset : mapGet (mapSet m v' ((mapGet m v' ).getD 0 - 1)) v' = some (k - 1) := by
        rw [h]
        simpa using mapGet_set_self m v' (k - 1)
      have := ih _ v' (k - 1) hset
      rw [this, List.count_cons_self]
      congr 1
      push_cast
      ring
    · have hset : mapGet (mapSet m v' ((mapGet m v' ).getD 0 - 1)) v = some k := by
        rw [mapGet_set_ne _ _ _ _ (fun hh => hv hh.symm)]
        exact h
      have := ih _ v k hset
      rw [this, List.count_cons_of_ne (Ne.symm hv)]

lemma relaxEdges_sub (vs : List String) :
    ∀ m, (relaxEdges m vs).2 ⊆ vs := by
  induction vs with
  | nil => intro m; simp [relaxEdges]
  | cons v' vs ih =>
    intro m x hx
    rw [relaxEdges] at hx
    by_cases hz : (mapGet m v').getD 0 - 1 = 0
    · rw [if_pos hz] at hx
      rcases List.mem_cons.mp hx with hx | hx
      · exact hx ▸ List.mem_cons_self _ _
      · exact List.mem_cons_of_mem _ (ih _ hx)
    · rw [if_neg hz] at hx
      exact List.mem_cons_of_mem _ (ih _ hx)

lemma relaxEdges_mem_q (vs : List String) :
    ∀ (m : IntMap) (v : String) (k : Int), mapGet m v = some k →
      (v ∈ (relaxEdges m vs).2 ↔ 1 ≤ k ∧ k ≤ (vs.count v : Int)) := by
  induction vs with
  | nil =>
    intro m v k h
    simp [relaxEdges]
    omega
  | cons v' vs ih =>
    intro m v k h
    rw [relaxEdges]
    by_cases hv : v' = v
    · subst hv
      have hset : mapGet (mapSet m v' ((mapGet m v' ).getD 0 - 1)) v' = some (k - 1) := by
        rw [h]
        simpa using mapGet_set_self m v' (k - 1)
      have hiq := ih _ v' (k - 1) hset
      rw [List.count_cons_self]
      by_cases hk : k = 1
      · subst hk
        rw [if_pos (by rw [h]; simp)]
        constructor
        · intro _
          have : (0 : Int) ≤ (vs.count v' : Int) := by positivity
          exact ⟨le_refl 1, by omega⟩
        · intro _
          exact List.mem_cons_self _ _
      · have hdz : (mapGet m v').getD 0 - 1 ≠ 0 := by
          rw [h]
          simp only [Option.getD_some]
          intro hh
          exact hk (by omega)
        rw [if_neg hdz, hiq]
        push_cast
        omega
    · have hset : mapGet (mapSet m v' ((mapGet m v' ).getD 0 - 1)) v = some k := by
        rw [mapGet_set_ne _ _ _ _ (fun hh => hv hh.symm)]
        exact h
      have hiq := ih _ v k hset
      rw [List.count_cons_of_ne (Ne.symm hv)]
      by_cases hz : (mapGet m v').getD 0 - 1 = 0
      · rw [if_pos hz]
        rw [List.mem_cons]
        constructor
        · rintro (rfl | hx)
          · exact absurd rfl hv
          · exact hiq.mp hx
        · intro hx
          exact Or.inr (hiq.mpr hx)
      · rw [if_neg hz]
        exact hiq

lemma relaxEdges_nodup (vs : List String) :
    ∀ m, (relaxEdges m vs).2.Nodup := by
  induction vs with
  | nil => intro m; simp [relaxEdges]
  | cons v' vs ih =>
    intro m
    rw [relaxEdges]
    by_cases hz : (mapGet m v').getD 0 - 1 = 0
    · rw [if_pos hz]
      refine List.nodup_cons.mpr ⟨fun hmem => ?_, ih _⟩
      have h1 := (relaxEdges_mem_q vs _ v' _ (mapGet_set_self m v'
        ((mapGet m v').getD 0 - 1))).mp hmem
      rw [hz] at h1
      omega
    · rw [if_neg hz]
      exact ih _

-- ============ Initialization lemmas ============

lemma initDeg_get (ns : List String) :
    ∀ (m : IntMap) (v : String),
      mapGet (initDeg m ns) v = if v ∈ ns then some 0 else mapGet m v := by
  induction ns with
  | nil => intro m v; simp [initDeg]
  | cons n ns ih =>
    intro m v
    rw [initDeg, ih]
    by_cases hv : v ∈ ns
    · rw [if_pos hv, if_pos (List.mem_cons_of_mem _ hv)]
    · rw [if_neg hv]
      by_cases hn : v = n
      · subst hn
        rw [if_pos (List.mem_cons_self _ _), mapGet_set_self]
      · rw [if_neg (by simp [hn, hv]), mapGet_set_ne _ _ _ _ hn]

lemma bumpList_get (vs : List String) :
    ∀ (m : IntMap) (v : String) (k : Int), mapGet m v = some k →
      mapGet (bumpList m vs) v = some (k + (vs.count v : Int)) := by
  induction vs with
  | nil => intro m v k h; simpa [bumpList] using h
  | cons v' vs ih =>
    intro m v k h
    rw [bumpList]
    by_cases hv : v' = v
    · subst hv
      have hset : mapGet (mapSet m v' ((mapGet m v' ).getD 0 + 1)) v' = some (k + 1) := by
        rw [h]
        simpa using mapGet_set_self m v' (k + 1)
      rw [ih _ v' (k + 1) hset, List.count_cons_self]
      congr 1
      push_cast
      ring
    · have hset : mapGet (mapSet m v' ((mapGet m v' ).getD 0 + 1)) v = some k := by
        rw [mapGet_set_ne _ _ _ _ (fun hh => hv hh.symm)]
        exact h
      rw [ih _ v k hset, List.count_cons_of_ne (Ne.symm hv)]

lemma remInto_nil_cons (e : String × List String) (g : Graph) (v : String) :
    remInto [] (e :: g) v = e.2.count v + remInto [] g v := by
  rw [remInto, if_neg (List.not_mem_nil _)]

lemma addEdges_get (g : Graph) :
    ∀ (m : IntMap) (v : String) (k : Int), mapGet m v = some k →
      mapGet (addEdges m g) v = some (k + (remInto [] g v : Int)) := by
  induction g with
  | nil => intro m v k h; simpa [addEdges, remInto] using h
  | cons e g ih =>
    intro m v k h
    rw [addEdges, ih _ v (k + (e.2.count v : Int)) (bumpList_get e.2 m v k h),
      remInto_nil_cons]
    congr 1
    push_cast
    ring

-- degSum bounds

lemma degSum_mapSet_zero (m : IntMap) (k : String) :
    degSum (mapSet m k 0) ≤ degSum m := by
  induction m with
  | nil => simp [mapSet, degSum]
  | cons e es ih =>
    by_cases he : e.1 = k
    · rw [mapSet, if_pos he, degSum_cons, degSum_cons]
      omega
    · rw [mapSet, if_neg he, degSum_cons, degSum_cons]
      omega

lemma initDeg_degSum (ns : List String) :
    ∀ m, degSum (initDeg m ns) ≤ degSum m := by
  induction ns with
  | nil => intro m; exact le_refl _
  | cons n ns ih =>
    intro m
    rw [initDeg]
    exact le_trans (ih _) (degSum_mapSet_zero m n)

lemma degSum_bump (m : IntMap) (v : String) :
    degSum (mapSet m v ((mapGet m v).getD 0 + 1)) ≤ degSum m + 1 := by
  induction m with
  | nil => simp [mapGet, mapSet, degSum]
  | cons e es ih =>
    by_cases he : e.1 = v
    · rw [mapGet, if_pos he, mapSet, if_pos he, degSum_cons, degSum_cons]
      simp only [Option.getD_some]
      omega
    · rw [mapGet, if_neg he, mapSet, if_neg he, degSum_cons, degSum_cons]
      omega

lemma bumpList_degSum (vs : List String) :
    ∀ m, degSum (bumpList m vs) ≤ degSum m + vs.length := by
  induction vs with
  | nil => intro m; simp [bumpList]
  | cons v vs ih =>
    intro m
    rw [bumpList]
    calc degSum (bumpList (mapSet m v ((mapGet m v).getD 0 + 1)) vs)
        ≤ degSum (mapSet m v ((mapGet m v).getD 0 + 1)) + vs.length := ih _
      _ ≤ degSum m + 1 + vs.length := by have := degSum_bump m v; omega
      _ = degSum m + (v :: vs).length := by simp [List.length_cons]; omega

lemma addEdges_degSum (g : Graph) :
    ∀ m, degSum (addEdges m g) ≤ degSum m + totalEdges g := by
  induction g with
  | nil => intro m; simp [addEdges, totalEdges]
  | cons e g ih =>
    intro m
    rw [addEdges]
    have h1 := ih (bumpList m e.2)
    have h2 := bumpList_degSum e.2 m
    have h3 : totalEdges (e :: g) = e.2.length + totalEdges g := by
      simp [totalEdges]
    omega

-- ============ remInto lemmas ============

lemma remInto_out_irrel (g : Graph) (out : List String) (n : String) (v : String)
    (h : n ∉ g.map Prod.fst) : remInto (out ++ [n]) g v = remInto out g v := by
  induction g with
  | nil => rfl
  | cons e g ih =>
    simp only [List.map_cons, List.mem_cons] at h
    push_neg at h
    rw [remInto, remInto, ih h.2]
    have hne : e.1 ≠ n := fun hh => h.1 hh.symm
    have : (e.1 ∈ out ++ [n]) ↔ e.1 ∈ out := by
      rw [List.mem_append]
      simp [hne]
    by_cases hm : e.1 ∈ out
    · rw [if_pos hm, if_pos (this.mpr hm)]
    · rw [if_neg hm, if_neg (fun hh => hm (this.mp hh))]

lemma remInto_drop (g : Graph) (out : List String) (n v : String)
    (hnd : (g.map Prod.fst).Nodup) (hmem : n ∈ g.map Prod.fst) (hout : n ∉ out) :
    remInto (out ++ [n]) g v + (graphGet g n).count v = remInto out g v := by
  induction g with
  | nil => simp at hmem
  | cons e g ih =>
    simp only [List.map_cons, List.mem_cons] at hmem
    simp only [List.map_cons, List.nodup_cons] at hnd
    rcases hmem with hmem | hmem
    · -- the head entry is n
      have hgg : graphGet (e :: g) n = e.2 := by
        rw [graphGet, mapGet, if_pos hmem.symm]
        rfl
      rw [hgg, remInto, remInto]
      rw [if_pos (show e.1 ∈ out ++ [n] by
        rw [← hmem]
        exact List.mem_append.mpr (Or.inr (by simp)))]
      rw [if_neg (show e.1 ∉ out from fun hh => hout (by rw [hmem]; exact hh))]
      rw [remInto_out_irrel g out n v (by rw [hmem]; exact hnd.1)]
      omega
    · -- n is deeper; the head key differs from n
      have hne : e.1 ≠ n := by
        intro hh
        rw [hh] at hnd
        exact hnd.1 hmem
      have hgg : graphGet (e :: g) n = graphGet g n := by
        rw [graphGet, mapGet, if_neg hne]
        rfl
      rw [hgg, remInto, remInto]
      have hiff : (e.1 ∈ out ++ [n]) ↔ e.1 ∈ out := by
        simp [List.mem_append, hne]
      have hrec := ih hnd.2 hmem
      by_cases hm : e.1 ∈ out
      · rw [if_pos hm, if_pos (hiff.mpr hm)]
        omega
      · rw [if_neg hm, if_neg (fun hh => hm (hiff.mp hh))]
        omega

lemma entry_get (g : Graph) (e : String × List String)
    (hnd : (g.map Prod.fst).Nodup) (he : e ∈ g) : graphGet g e.1 = e.2 := by
  induction g with
  | nil => simp at he
  | cons e' g ih =>
    simp only [List.map_cons, List.nodup_cons] at hnd
    rcases List.mem_cons.mp he with he | he
    · rw [he, graphGet, mapGet, if_pos rfl]
      rfl
    · have hne : e'.1 ≠ e.1 := by
        intro hh
        exact hnd.1 (hh ▸ List.mem_map.mpr ⟨e, he, rfl⟩)
      rw [graphGet, mapGet, if_neg hne]
      exact ih hnd.2 he

lemma rem_zero_entry (g : Graph) (out : List String) (v : String)
    (h : remInto out g v = 0) :
    ∀ e ∈ g, e.1 ∉ out → e.2.count v = 0 := by
  induction g with
  | nil => intro e he; simp at he
  | cons e' g ih =>
    intro e he hout
    rw [remInto] at h
    rcases List.mem_cons.mp he with he | he
    · subst he
      rw [if_neg hout] at h
      omega
    · apply ih _ e he hout
      omega

lemma rem_pos_entry (g : Graph) (out : List String) (v : String)
    (h : remInto out g v ≠ 0) :
    ∃ e, e ∈ g ∧ e.1 ∉ out ∧ 0 < e.2.count v := by
  induction g with
  | nil => simp [remInto] at h
  | cons e' g ih =>
    rw [remInto] at h
    by_cases hm : e'.1 ∈ out
    · rw [if_pos hm] at h
      simp only [Nat.zero_add] at h
      obtain ⟨e, he, h1, h2⟩ := ih h
      exact ⟨e, List.mem_cons_of_mem _ he, h1, h2⟩
    · rw [if_neg hm] at h
      by_cases hc : e'.2.count v = 0
      · rw [hc] at h
        simp only [Nat.zero_add] at h
        obtain ⟨e, he, h1, h2⟩ := ih h
        exact ⟨e, List.mem_cons_of_mem _ he, h1, h2⟩
      · exact ⟨e', List.mem_cons_self _ _, hm, Nat.pos_of_ne_zero hc⟩

lemma rem_zero_preds (g : Graph) (out : List String) (v : String)
    (hnd : (g.map Prod.fst).Nodup) (h : remInto out g v = 0) :
    ∀ u, v ∈ graphGet g u → u ∈ out := by
  intro u hv
  by_contra hout
  have hu : u ∈ g.map Prod.fst :=
    graphGet_ne_nil_mem_keys g u (fun hh => by rw [hh] at hv; exact List.not_mem_nil _ hv)
  obtain ⟨e, he, hfst⟩ := List.mem_map.mp hu
  have hget : graphGet g u = e.2 := hfst ▸ entry_get g e hnd he
  have hcnt : e.2.count v = 0 :=
    rem_zero_entry g out v h e he (hfst ▸ hout)
  rw [hget] at hv
  have := List.count_pos_iff.mpr hv
  omega

-- ============ The Kahn loop invariant ============

lemma kahn_step (g : Graph) (names : List String)
    (hkeys : g.map Prod.fst = names) (hnd : names.Nodup)
    (hadj : ∀ u v, v ∈ graphGet g u → v ∈ names)
    (n : String) (rest : List String) (m : IntMap) (out : List String)
    (hInv : KahnInv g names (n :: rest) m out) :
    KahnInv g names (rest ++ (relaxEdges m (graphGet g n)).2)
      (relaxEdges m (graphGet g n)).1 (out ++ [n]) := by
  have hkeysnd : (g.map Prod.fst).Nodup := by rw [hkeys]; exact hnd
  have hnn : n ∈ names := hInv.q_sub n (List.mem_cons_self _ _)
  have hdisj := List.disjoint_of_nodup_append hInv.nodup
  have hnout : n ∉ out := fun h => hdisj h (List.mem_cons_self _ _)
  have hnrest : n ∉ rest := by
    have := hInv.nodup.of_append_right
    exact (List.nodup_cons.mp this).1
  have hrem0 : remInto out g n = 0 :=
    (hInv.zero_iff n hnn).mpr (Or.inr (List.mem_cons_self _ _))
  have hpreds : ∀ u, n ∈ graphGet g u → u ∈ out :=
    rem_zero_preds g out n hkeysnd hrem0
  have hkmem : n ∈ g.map Prod.fst := by rw [hkeys]; exact hnn
  have hdrop : ∀ v, remInto (out ++ [n]) g v + (graphGet g n).count v = remInto out g v :=
    fun v => remInto_drop g out n v hkeysnd hkmem hnout
  have hdeg' : ∀ v ∈ names, mapGet (relaxEdges m (graphGet g n)).1 v =
      some ((remInto (out ++ [n]) g v : Int)) := by
    intro v hv
    rw [relaxEdges_get (graphGet g n) m v _ (hInv.deg v hv)]
    congr 1
    have := hdrop v
    push_cast
    omega
  have hmemq : ∀ v ∈ names, (v ∈ (relaxEdges m (graphGet g n)).2 ↔
      (remInto (out ++ [n]) g v = 0 ∧ remInto out g v ≠ 0)) := by
    intro v hv
    rw [relaxEdges_mem_q (graphGet g n) m v _ (hInv.deg v hv)]
    have := hdrop v
    constructor
    · intro hx
      omega
    · intro hx
      omega
  have hnewq_not : ∀ v ∈ (relaxEdges m (graphGet g n)).2,
      v ∈ names ∧ v ∉ out ∧ v ≠ n ∧ v ∉ rest := by
    intro v hv
    have hvnames : v ∈ names := hadj n v (relaxEdges_sub _ _ hv)
    have hx := (hmemq v hvnames).mp hv
    have hnotmem : ¬ (v ∈ out ∨ v ∈ n :: rest) := by
      intro hmem
      exact hx.2 ((hInv.zero_iff v hvnames).mpr hmem)
    push_neg at hnotmem
    have h2 := hnotmem.2
    rw [List.mem_cons] at h2
    push_neg at h2
    exact ⟨hvnames, hnotmem.1, h2.1, h2.2⟩
  have h0 : ((out ++ [n]) ++ rest).Nodup := by
    have := hInv.nodup
    rw [show out ++ n :: rest = (out ++ [n]) ++ rest by simp] at this
    exact this
  constructor
  · -- nodup
    rw [List.nodup_append]
    refine ⟨h0.of_append_left, ?_, ?_⟩
    · rw [List.nodup_append]
      refine ⟨h0.of_append_right, relaxEdges_nodup _ _, ?_⟩
      intro a ha hb
      exact (hnewq_not a hb).2.2.2 ha
    · intro a ha hb
      rcases List.mem_append.mp ha with ha | ha
      · rcases List.mem_append.mp hb with hb | hb
        · exact List.disjoint_of_nodup_append h0 (List.mem_append.mpr (Or.inl ha)) hb
        · exact (hnewq_not a hb).2.1 ha
      · simp only [List.mem_singleton] at ha
        subst ha
        rcases List.mem_append.mp hb with hb | hb
        · exact hnrest hb
        · exact (hnewq_not a hb).2.2.1 rfl
  · -- out_sub
    intro x hx
    rcases List.mem_append.mp hx with hx | hx
    · exact hInv.out_sub x hx
    · simp only [List.mem_singleton] at hx
      exact hx ▸ hnn
  · -- q_sub
    intro x hx
    rcases List.mem_append.mp hx with hx | hx
    · exact hInv.q_sub x (List.mem_cons_of_mem _ hx)
    · exact (hnewq_not x hx).1
  · -- deg
    exact hdeg'
  · -- zero_iff
    intro v hv
    constructor
    · intro hz
      by_cases hv0 : remInto out g v = 0
      · rcases (hInv.zero_iff v hv).mp hv0 with hmem | hmem
        · exact Or.inl (List.mem_append.mpr (Or.inl hmem))
        · rcases List.mem_cons.mp hmem with hmem | hmem
          · exact Or.inl (List.mem_append.mpr (Or.inr (by simp [hmem])))
          · exact Or.inr (List.mem_append.mpr (Or.inl hmem))
      · exact Or.inr (List.mem_append.mpr (Or.inr ((hmemq v hv).mpr ⟨hz, hv0⟩)))
    · intro hmem
      have hfromold : ∀ w, w ∈ out ∨ w ∈ n :: rest → w = v → remInto (out ++ [n]) g v = 0 := by
        intro w hw hwv
        have h1 : remInto out g v = 0 := (hInv.zero_iff v hv).mpr (hwv ▸ hw)
        have := hdrop v
        omega
      rcases hmem with hmem | hmem
      · rcases List.mem_append.mp hmem with hmem | hmem
        · exact hfromold v (Or.inl hmem) rfl
        · simp only [List.mem_singleton] at hmem
          exact hfromold v (Or.inr (by simp [hmem])) rfl
      · rcases List.mem_append.mp hmem with hmem | hmem
        · exact hfromold v (Or.inr (List.mem_cons_of_mem _ hmem)) rfl
        · exact ((hmemq v hv).mp hmem).1
  · -- order
    intro v hvmem u hedge
    rcases List.mem_append.mp hvmem with hv | hv
    · obtain ⟨huout, hidx⟩ := hInv.order v hv u hedge
      refine ⟨List.mem_append.mpr (Or.inl huout), ?_⟩
      rw [List.indexOf_append_of_mem huout, List.indexOf_append_of_mem hv]
      exact hidx
    · simp only [List.mem_singleton] at hv
      subst hv
      have huout : u ∈ out := hpreds u hedge
      refine ⟨List.mem_append.mpr (Or.inl huout), ?_⟩
      rw [List.indexOf_append_of_mem huout, List.indexOf_append_of_not_mem hnout]
      have h1 : out.indexOf u < out.length := List.indexOf_lt_length.mpr huout
      simp only [List.indexOf_cons_self]
      omega

-- ============ The loop master lemma ============

lemma kahn_loop (g : Graph) (names : List String)
    (hkeys : g.map Prod.fst = names) (hnd : names.Nodup)
    (hadj : ∀ u v, v ∈ graphGet g u → v ∈ names) :
    ∀ (fuel : Nat) (q : List String) (m : IntMap) (out : List String),
      KahnInv g names q m out → q.length + degSum m < fuel →
      ∃ mF, KahnInv g names [] mF (topoLoop g fuel q m out) := by
  intro fuel
  induction fuel with
  | zero => intro q m out _ hb; omega
  | succ fuel ih =>
    intro q m out hInv hb
    cases q with
    | nil => exact ⟨m, hInv⟩
    | cons n rest =>
      have hstep := kahn_step g names hkeys hnd hadj n rest m out hInv
      have hmeas := relaxEdges_measure (graphGet g n) m
      have hb2 : (rest ++ (relaxEdges m (graphGet g n)).2).length +
          degSum (relaxEdges m (graphGet g n)).1 < fuel := by
        rw [List.length_append]
        simp only [List.length_cons] at hb
        omega
      have := ih (rest ++ (relaxEdges m (graphGet g n)).2)
        (relaxEdges m (graphGet g n)).1 (out ++ [n]) hstep hb2
      simpa [topoLoop] using this

/-- Fuel-stability: above the measure bound the loop result does not
depend on the fuel, so the fuel chosen in `topoSort` computes the exact
fixpoint of the source's `while` loop. -/
lemma topoLoop_fuel_stable (g : Graph) :
    ∀ (fuel fuel' : Nat) (q : List String) (m : IntMap) (out : List String),
      q.length + degSum m < fuel → fuel ≤ fuel' →
      topoLoop g fuel q m out = topoLoop g fuel' q m out := by
  intro fuel
  induction fuel with
  | zero => intro fuel' q m out hb; omega
  | succ fuel ih =>
    intro fuel' q m out hb hle
    cases fuel' with
    | zero => omega
    | succ fuel' =>
      cases q with
      | nil => rfl
      | cons n rest =>
        have hmeas := relaxEdges_measure (graphGet g n) m
        simp only [topoLoop]
        apply ih
        · rw [List.length_append]
          simp only [List.length_cons] at hb
          omega
        · omega

-- ============ Cycle construction ============

lemma cycle_of_no_source (r : String → String → Prop) (bound : List String)
    (P : String → Prop) (hsub : ∀ v, P v → v ∈ bound)
    (v₀ : String) (h₀ : P v₀)
    (h : ∀ v, P v → ∃ u, P u ∧ r u v) : ∃ n, Relation.TransGen r n n := by
  classical
  let f : {v // P v} → {v // P v} := fun v => ⟨(h v.1 v.2).choose, (h v.1 v.2).choose_spec.1⟩
  have hf : ∀ v : {v // P v}, r (f v).1 v.1 := fun v => (h v.1 v.2).choose_spec.2
  let c : Nat → {v // P v} := fun k => f^[k] ⟨v₀, h₀⟩
  have hc : ∀ k, r (c (k + 1)).1 (c k).1 := by
    intro k
    have : c (k + 1) = f (c k) := Function.iterate_succ_apply' f k _
    rw [this]
    exact hf _
  have hchain : ∀ i j, i < j → Relation.TransGen r (c j).1 (c i).1 := by
    intro i j
    induction j with
    | zero => omega
    | succ j ihj =>
      intro hij
      rcases Nat.lt_succ_iff_lt_or_eq.mp hij with hij | hij
      · exact (ihj hij).head (hc j)
      · rw [hij]
        exact Relation.TransGen.single (hc j)
  have hmap : ∀ k ∈ Finset.range (bound.length + 1), (c k).1 ∈ bound.toFinset := by
    intro k _
    exact List.mem_toFinset.mpr (hsub (c k).1 (c k).2)
  have hcard : bound.toFinset.card < (Finset.range (bound.length + 1)).card := by
    rw [Finset.card_range]
    have := bound.toFinset_card_le
    omega
  obtain ⟨i, hi, j, hj, hne, heq⟩ :=
    Finset.exists_ne_map_eq_of_card_lt_of_maps_to hcard hmap
  rcases Nat.lt_or_ge i j with hij | hij
  · exact ⟨(c i).1, heq ▸ hchain i j hij⟩
  · have hji : j < i := by omega
    exact ⟨(c j).1, heq ▸ hchain j i hji⟩

-- ============ Initial state ============

lemma kahn_init (g : Graph) (names : List String)
    (hkeys : g.map Prod.fst = names) (hnd : names.Nodup) :
    KahnInv g names
      (names.filter (fun n => (mapGet (addEdges (initDeg [] names) g) n).getD 0 = 0))
      (addEdges (initDeg [] names) g) [] := by
  have hdeg0 : ∀ v ∈ names,
      mapGet (addEdges (initDeg [] names) g) v = some ((remInto [] g v : Int)) := by
    intro v hv
    have h1 : mapGet (initDeg [] names) v = some 0 := by
      rw [initDeg_get, if_pos hv]
    rw [addEdges_get g _ v 0 h1]
    congr 1
    omega
  have hq : ∀ v, (v ∈ names.filter
      (fun n => (mapGet (addEdges (initDeg [] names) g) n).getD 0 = 0)) ↔
      (v ∈ names ∧ remInto [] g v = 0) := by
    intro v
    rw [List.mem_filter]
    constructor
    · intro ⟨h1, h2⟩
      rw [hdeg0 v h1] at h2
      simp only [Option.getD_some] at h2
      refine ⟨h1, ?_⟩
      have : ((remInto [] g v : Int)) = 0 := by
        simpa using h2
      omega
    · intro ⟨h1, h2⟩
      refine ⟨h1, ?_⟩
      rw [hdeg0 v h1]
      simp [h2]
  constructor
  · simp only [List.nil_append]
    exact hnd.filter _
  · intro x hx
    simp at hx
  · intro x hx
    exact (List.mem_filter.mp hx).1
  · exact hdeg0
  · intro v hv
    constructor
    · intro hz
      exact Or.inr ((hq v).mpr ⟨hv, hz⟩)
    · rintro (hmem | hmem)
      · simp at hmem
      · exact ((hq v).mp hmem).2
  · intro v hv
    simp at hv

-- ============ topoSort characterization ============

lemma topoSort_error_msg (ps : List WorkspacePackage) (g : Graph) (msg : List Char)
    (h : topoSort ps g = Except.error msg) :
    msg = ("Cycle detected in local dependency graph.").toList := by
  rw [topoSort] at h
  by_cases hc : (topoLoop g (ps.length + totalEdges g + 1)
      ((ps.map (fun p => p.name)).filter
        (fun n => (mapGet (addEdges (initDeg [] (ps.map (fun p => p.name))) g) n).getD 0 = 0))
      (addEdges (initDeg [] (ps.map (fun p => p.name))) g) []).length ≠ ps.length
  · rw [if_pos hc] at h
    injection h with h
    exact h.symm
  · rw [if_neg hc] at h
    exact absurd h (by simp)

lemma topoSort_complete_core (ps : List WorkspacePackage) (g : Graph)
    (hkeys : g.map Prod.fst = ps.map (fun p => p.name))
    (hnd : (ps.map (fun p => p.name)).Nodup)
    (hadj : ∀ u v, v ∈ graphGet g u → v ∈ ps.map (fun p => p.name))
    (hacyc : ∀ n, ¬ Relation.TransGen (graphEdge g) n n) :
    ∃ out, topoSort ps g = Except.ok out ∧ out.Perm (ps.map (fun p => p.name)) ∧
      ∀ u v, v ∈ graphGet g u → out.indexOf u < out.indexOf v := by
  set names := ps.map (fun p => p.name) with hnames
  set inDeg := addEdges (initDeg [] names) g with hinDeg
  set q0 := names.filter (fun n => (mapGet inDeg n).getD 0 = 0) with hq0
  set outF := topoLoop g (ps.length + totalEdges g + 1) q0 inDeg [] with houtF
  have htopo : topoSort ps g = if outF.length ≠ ps.length then
      Except.error (("Cycle detected in local dependency graph.").toList)
    else Except.ok outF := rfl
  have hbound : q0.length + degSum inDeg < ps.length + totalEdges g + 1 := by
    have h1 : q0.length ≤ names.length := List.length_filter_le _ _
    have h2 : degSum inDeg ≤ degSum (initDeg [] names) + totalEdges g := addEdges_degSum g _
    have h3 : degSum (initDeg [] names) ≤ degSum ([] : IntMap) := initDeg_degSum names []
    have h4 : degSum ([] : IntMap) = 0 := rfl
    have h5 : names.length = ps.length := by rw [hnames, List.length_map]
    omega
  obtain ⟨mF, hInvF⟩ := kahn_loop g names hkeys hnd hadj
    (ps.length + totalEdges g + 1) q0 inDeg [] (kahn_init g names hkeys hnd) hbound
  have houtnodup : outF.Nodup := by
    have := hInvF.nodup
    simpa using this
  have houtsub : ∀ x ∈ outF, x ∈ names := hInvF.out_sub
  have hzero : ∀ v ∈ names, (remInto outF g v = 0 ↔ v ∈ outF) := by
    intro v hv
    rw [hInvF.zero_iff v hv]
    simp
  have horder := hInvF.order
  have hkeysnd : (g.map Prod.fst).Nodup := by rw [hkeys]; exact hnd
  have hcompl : ∀ v ∈ names, v ∈ outF := by
    by_contra hcon
    push_neg at hcon
    obtain ⟨v₀, hv₀n, hv₀o⟩ := hcon
    have hstep : ∀ v, (v ∈ names ∧ v ∉ outF) →
        ∃ u, (u ∈ names ∧ u ∉ outF) ∧ graphEdge g u v := by
      rintro v ⟨hvn, hvo⟩
      have hrem : remInto outF g v ≠ 0 := fun hz => hvo ((hzero v hvn).mp hz)
      obtain ⟨e, heg, hout, hcnt⟩ := rem_pos_entry g outF v hrem
      have hedge : v ∈ graphGet g e.1 := by
        rw [entry_get g e hkeysnd heg]
        exact List.count_pos_iff.mp hcnt
      have hen : e.1 ∈ names := by
        rw [← hkeys]
        exact List.mem_map.mpr ⟨e, heg, rfl⟩
      exact ⟨e.1, ⟨hen, hout⟩, hedge⟩
    obtain ⟨n, hn⟩ := cycle_of_no_source (graphEdge g) names
      (fun v => v ∈ names ∧ v ∉ outF) (fun v hv => hv.1) v₀ ⟨hv₀n, hv₀o⟩ hstep
    exact hacyc n hn
  have hperm : outF.Perm names := by
    have hsub1 : outF.Subperm names := houtnodup.subperm houtsub
    have hsub2 : names.Subperm outF := hnd.subperm hcompl
    exact hsub1.perm_of_length_le hsub2.length_le
  have hlen : outF.length = ps.length := by
    rw [hperm.length_eq, hnames, List.length_map]
  refine ⟨outF, ?_, hperm, ?_⟩
  · rw [htopo, if_neg (fun hne => hne hlen)]
  · intro u v hedge
    have hvn : v ∈ names := hadj u v hedge
    exact (horder v (hcompl v hvn) u hedge).2

lemma acyclic_of_rank (r : String → String → Prop) (rank : String → Nat)
    (h : ∀ u v, r u v → rank u < rank v) : ∀ n, ¬ Relation.TransGen r n n := by
  have key : ∀ a b, Relation.TransGen r a b → rank a < rank b := by
    intro a b hab
    induction hab with
    | single h1 => exact h _ _ h1
    | tail _ h1 ihab => exact ihab.trans (h _ _ h1)
  intro n hn
  exact absurd (key n n hn) (lt_irrefl _)

lemma topoSort_sound_core (ps : List WorkspacePackage) (g : Graph)
    (hkeys : g.map Prod.fst = ps.map (fun p => p.name))
    (hnd : (ps.map (fun p => p.name)).Nodup)
    (hadj : ∀ u v, v ∈ graphGet g u → v ∈ ps.map (fun p => p.name)) :
    ∀ out, topoSort ps g = Except.ok out →
      (∀ n, ¬ Relation.TransGen (graphEdge g) n n) ∧ out.length = ps.length ∧
      out.Perm (ps.map (fun p => p.name)) ∧
      ∀ u v, v ∈ graphGet g u → out.indexOf u < out.indexOf v := by
  intro out hok
  set names := ps.map (fun p => p.name) with hnames
  set inDeg := addEdges (initDeg [] names) g with hinDeg
  set q0 := names.filter (fun n => (mapGet inDeg n).getD 0 = 0) with hq0
  set outF := topoLoop g (ps.length + totalEdges g + 1) q0 inDeg [] with houtF
  have htopo : topoSort ps g = if outF.length ≠ ps.length then
      Except.error (("Cycle detected in local dependency graph.").toList)
    else Except.ok outF := rfl
  have hout : outF = out ∧ outF.length = ps.length := by
    by_cases hc : outF.length ≠ ps.length
    · rw [htopo, if_pos hc] at hok
      exact absurd hok (by simp)
    · rw [htopo, if_neg hc] at hok
      push_neg at hc
      injection hok with hok
      exact ⟨hok, hc⟩
  obtain ⟨rfl, hlen⟩ := hout
  have hbound : q0.length + degSum inDeg < ps.length + totalEdges g + 1 := by
    have h1 : q0.length ≤ names.length := List.length_filter_le _ _
    have h2 : degSum inDeg ≤ degSum (initDeg [] names) + totalEdges g := addEdges_degSum g _
    have h3 : degSum (initDeg [] names) ≤ degSum ([] : IntMap) := initDeg_degSum names []
    have h4 : degSum ([] : IntMap) = 0 := rfl
    have h5 : names.length = ps.length := by rw [hnames, List.length_map]
    omega
  obtain ⟨mF, hInvF⟩ := kahn_loop g names hkeys hnd hadj
    (ps.length + totalEdges g + 1) q0 inDeg [] (kahn_init g names hkeys hnd) hbound
  have houtnodup : outF.Nodup := by
    have := hInvF.nodup
    simpa using this
  have houtsub : ∀ x ∈ outF, x ∈ names := hInvF.out_sub
  have hperm : outF.Perm names := by
    have hsub1 : outF.Subperm names := houtnodup.subperm houtsub
    apply hsub1.perm_of_length_le
    rw [hlen, hnames, List.length_map]
  have hcompl : ∀ v ∈ names, v ∈ outF := fun v hv => hperm.mem_iff.mpr hv
  have horderfull : ∀ u v, v ∈ graphGet g u → outF.indexOf u < outF.indexOf v := by
    intro u v hedge
    have hvn : v ∈ names := hadj u v hedge
    exact (hInvF.order v (hcompl v hvn) u hedge).2
  refine ⟨?_, hlen, hperm, horderfull⟩
  exact acyclic_of_rank _ (fun x => outF.indexOf x) horderfull

lemma graph_rank_acyclic (g : Graph) (rank : String → Nat)
    (h : ∀ e ∈ g, ∀ v ∈ e.2, rank e.1 < rank v) :
    ∀ n, ¬ Relation.TransGen (graphEdge g) n n := by
  apply acyclic_of_rank
  intro u v huv
  rcases hg : mapGet g u with _ | vs
  · rw [graphEdge, graphGet, hg] at huv
    exact absurd huv (List.not_mem_nil _)
  · have hmem := mapGet_some_mem g u vs hg
    have heq : graphGet g u = vs := by
      rw [graphGet, hg]
      rfl
    rw [graphEdge, heq] at huv
    exact h (u, vs) hmem v huv

-- ============ C1, C2, C9 ============

/-- C1: on a workspace whose internal dependency relation is acyclic,
`topoSort` succeeds with a permutation of the package names in which,
for every recorded edge dependency → dependent, the index of the
dependency strictly precedes the index of the dependent. -/
theorem topoSort_perm_ordered (ps : List WorkspacePackage)
    (hnd : (ps.map (fun p => p.name)).Nodup)
    (hacyc : ∀ n, ¬ Relation.TransGen (graphEdge (buildGraph ps)) n n) :
    ∃ out, topoSort ps (buildGraph ps) = Except.ok out ∧
      out.Perm (ps.map (fun p => p.name)) ∧
      ∀ u v, v ∈ graphGet (buildGraph ps) u → out.indexOf u < out.indexOf v :=
  topoSort_complete_core ps (buildGraph ps) (buildGraph_keys ps hnd) hnd
    (buildGraph_adj_sub ps) hacyc

/-- C2: `topoSort` fails with the cycle error exactly when the
workspace-internal dependency relation has a cycle, and a successful
run always emits exactly as many names as there are packages (never a
truncated ordering). -/
theorem topoSort_error_iff_cycle (ps : List WorkspacePackage)
    (hnd : (ps.map (fun p => p.name)).Nodup) :
    (topoSort ps (buildGraph ps) =
        Except.error (("Cycle detected in local dependency graph.").toList) ↔
      ∃ n, Relation.TransGen (graphEdge (buildGraph ps)) n n) ∧
    (∀ out, topoSort ps (buildGraph ps) = Except.ok out → out.length = ps.length) := by
  constructor
  · constructor
    · intro herr
      by_contra hnc
      push_neg at hnc
      obtain ⟨out, hok, _⟩ := topoSort_complete_core ps (buildGraph ps)
        (buildGraph_keys ps hnd) hnd (buildGraph_adj_sub ps) hnc
      rw [hok] at herr
      exact absurd herr (by simp)
    · rintro ⟨n, hn⟩
      cases hres : topoSort ps (buildGraph ps) with
      | error msg => rw [topoSort_error_msg ps (buildGraph ps) msg hres]
      | ok out =>
        have := (topoSort_sound_core ps (buildGraph ps) (buildGraph_keys ps hnd) hnd
          (buildGraph_adj_sub ps) out hres).1
        exact absurd hn (this n)
  · intro out hok
    exact (topoSort_sound_core ps (buildGraph ps) (buildGraph_keys ps hnd) hnd
      (buildGraph_adj_sub ps) out hok).2.1

/-- C9: even when duplicate adjacency entries arise (the same dependency
listed in several fields), an acyclic workspace is emitted with every
package name exactly once and the output length equals the package
count. -/
theorem topoSort_exactly_once (ps : List WorkspacePackage)
    (hnd : (ps.map (fun p => p.name)).Nodup)
    (hacyc : ∀ n, ¬ Relation.TransGen (graphEdge (buildGraph ps)) n n) :
    ∃ out, topoSort ps (buildGraph ps) = Except.ok out ∧
      out.length = ps.length ∧
      ∀ n ∈ ps.map (fun p => p.name), out.count n = 1 := by
  obtain ⟨out, hok, hperm, _⟩ := topoSort_complete_core ps (buildGraph ps)
    (buildGraph_keys ps hnd) hnd (buildGraph_adj_sub ps) hacyc
  refine ⟨out, hok, ?_, ?_⟩
  · rw [hperm.length_eq, List.length_map]
  · intro n hn
    rw [hperm.count_eq]
    exact List.count_eq_one_of_mem hnd hn

theorem topoSort_perm_ordered_witness :
    ∃ out, topoSort chainPkgs (buildGraph chainPkgs) = Except.ok out ∧
      out.Perm (chainPkgs.map (fun p => p.name)) ∧
      ∀ u v, v ∈ graphGet (buildGraph chainPkgs) u → out.indexOf u < out.indexOf v :=
  topoSort_perm_ordered chainPkgs (by decide)
    (graph_rank_acyclic (buildGraph chainPkgs)
      (fun s => if s = "c" then 0 else if s = "b" then 1 else 2) (by decide))

theorem topoSort_error_iff_cycle_witness :
    topoSort cycPkgs (buildGraph cycPkgs) =
      Except.error (("Cycle detected in local dependency graph.").toList) := by
  apply (topoSort_error_iff_cycle cycPkgs (by decide)).1.mpr
  exact ⟨"a",
    Relation.TransGen.head (show graphEdge (buildGraph cycPkgs) "a" "b" by decide)
      (Relation.TransGen.single (show graphEdge (buildGraph cycPkgs) "b" "a" by decide))⟩

theorem topoSort_exactly_once_witness :
    ∃ out, topoSort dupPkgs (buildGraph dupPkgs) = Except.ok out ∧
      out.length = dupPkgs.length ∧
      ∀ n ∈ dupPkgs.map (fun p => p.name), out.count n = 1 :=
  topoSort_exactly_once dupPkgs (by decide)
    (graph_rank_acyclic (buildGraph dupPkgs)
      (fun s => if s = "a" then 0 else 1) (by decide))
